import Mathlib

/-!
Verification of the LaTeX-solutions-to-PreTeXt converter
(`scripts/convert_solutions_latex_to_pretext.py`).

The program is a single-pass text pipeline.  We embed it shallowly over
`List Char`:

* Python strings become `List Char`; string indices become `Nat` offsets.
* Each concrete regular expression of the script is realised as a
  deterministic matcher function (the patterns involved are deterministic
  once the greedy/backtracking semantics of the concrete pattern is worked
  out; the derivation is recorded at each matcher).
* `re.sub` becomes `subAll` (leftmost, non-overlapping, no rescanning of
  replacements), `str.replace` becomes `replaceAll`, `re.search` becomes
  `searchPair` (leftmost match), `re.finditer` becomes `findChapters`.
* Loops that skip over a matched chunk are written with an explicit fuel
  argument equal to the input length (each iteration consumes at least one
  character, so the fuel never runs out); this keeps every definition
  executable by kernel reduction.
* Python's `\s` for ASCII input is the six-character class modelled by
  `isPySpace`; `\d` is `Char.isDigit`.
* File input/output of `main` is modelled as an explicit event trace
  (`FileEv`), since the in-memory pipeline is otherwise pure.

Brace characters inside string and character literals are written with
`\x7b` and `\x7d` escapes, and the backtick with `\x60`.
-/

set_option maxRecDepth 2000000

/-- ASCII whitespace class of Python's regex `\s` and `str.strip`. -/
def isPySpace (c : Char) : Bool :=
  c = ' ' || c = '\t' || c = '\n' || c = '\r' || c = '\x0b' || c = '\x0c'

/-- The opening brace character. -/
def obr : Char := '\x7b'

/-- The closing brace character. -/
def cbr : Char := '\x7d'

/-! ### Brace-aware extractor (`extract_braced_content`, lines 107-132) -/

/-- Loop body of `extract_braced_content`: walks the text one character at a
time, tracking the brace depth, accumulating the argument in reverse, and
returning the content together with the index just past the closing brace
(or the end of text when the braces never re-balance).  Mirrors the
`while i < len(text)` loop of the source. -/
def ebcLoop (i : Nat) (depth : Int) (result : List Char) :
    List Char → Option (List Char) × Nat
  | [] => (some result.reverse, i)
  | c :: rest =>
    if c = obr then
      ebcLoop (i+1) (depth+1) (if depth + 1 > 1 then c :: result else result) rest
    else if c = cbr then
      (if depth - 1 = 0 then (some result.reverse, i+1)
       else ebcLoop (i+1) (depth-1) (c :: result) rest)
    else
      ebcLoop (i+1) depth (if depth > 0 then c :: result else result) rest

/-- `extract_braced_content(text, start_pos)`: `(None, start_pos)` when the
start position is out of range or not an opening brace, otherwise the
depth-counting loop starting at `start_pos`. -/
def extract_braced_content (text : List Char) (start_pos : Nat) :
    Option (List Char) × Nat :=
  if start_pos < text.length ∧ text[start_pos]? = some obr then
    ebcLoop start_pos 0 [] (text.drop start_pos)
  else
    (none, start_pos)

/-! ### Generic scanning helpers -/

/-- Consume a literal. -/
def litP (lit : List Char) (cs : List Char) : Option (List Char) :=
  if lit.isPrefixOf cs then some (cs.drop lit.length) else none

/-- Consume a nonempty maximal run of characters satisfying `p`
(the deterministic reading of a greedy `[...]+` whose class excludes the
character required next). -/
def classP (p : Char → Bool) (cs : List Char) : Option (List Char × List Char) :=
  if cs.takeWhile p = [] then none
  else some (cs.takeWhile p, cs.drop (cs.takeWhile p).length)

/-- Consume one fixed character. -/
def charP (c : Char) : List Char → Option (List Char)
  | x :: r => if x = c then some r else none
  | [] => none

/-- Offset of the first occurrence of `pat`. -/
def findSub (pat : List Char) : List Char → Option Nat
  | [] => if pat.isPrefixOf ([] : List Char) then some 0 else none
  | c :: t =>
    if pat.isPrefixOf (c :: t) then some 0
    else
      match findSub pat t with
      | some j => some (j+1)
      | none => none

/-- Offset of the first occurrence of `pat` reachable without crossing a
newline (for `.*?` without `re.DOTALL`). -/
def findSubNoNl (pat : List Char) : List Char → Option Nat
  | [] => if pat.isPrefixOf ([] : List Char) then some 0 else none
  | c :: t =>
    if pat.isPrefixOf (c :: t) then some 0
    else if c = '\n' then none
    else
      match findSubNoNl pat t with
      | some j => some (j+1)
      | none => none

/-- Index of the last newline in a list, if any. -/
def lastNl : List Char → Option Nat
  | [] => none
  | c :: t =>
    match lastNl t with
    | some j => some (j+1)
    | none => if c = '\n' then some 0 else none

/-- `str.replace` / fixed-string `re.sub`: leftmost, non-overlapping,
replacements are not rescanned.  Fueled loop; each step consumes at least
one input character, so fuel equal to the input length never runs out. -/
def repGo (pat rep : List Char) : Nat → List Char → List Char
  | _, [] => []
  | 0, l => l
  | fuel+1, c :: t =>
    if pat.isPrefixOf (c :: t) ∧ pat ≠ [] then
      rep ++ repGo pat rep fuel ((c :: t).drop pat.length)
    else c :: repGo pat rep fuel t

/-- All occurrences of `pat` replaced by `rep`. -/
def replaceAll (pat rep l : List Char) : List Char :=
  repGo pat rep l.length l

/-- `re.sub` with a deterministic matcher `f` returning the replacement and
the number of characters matched: leftmost, non-overlapping, replacements
not rescanned. -/
def subGo (f : List Char → Option (List Char × Nat)) : Nat → List Char → List Char
  | _, [] => []
  | 0, l => l
  | fuel+1, c :: t =>
    match f (c :: t) with
    | some (rep, n) =>
      if n = 0 then c :: subGo f fuel t
      else rep ++ subGo f fuel ((c :: t).drop n)
    | none => c :: subGo f fuel t

/-- Run a matcher-based substitution over a whole string. -/
def subAll (f : List Char → Option (List Char × Nat)) (l : List Char) : List Char :=
  subGo f l.length l

/-- Leftmost match of `m`, as (group, match start, match end). -/
def searchPair {alpha : Type} (m : List Char → Option (alpha × Nat)) :
    List Char → Option (alpha × Nat × Nat)
  | [] =>
    match m [] with
    | some (a, n) => some (a, 0, n)
    | none => none
  | c :: t =>
    match m (c :: t) with
    | some (a, n) => some (a, 0, n)
    | none =>
      match searchPair m t with
      | some (a, s1, e1) => some (a, s1+1, e1+1)
      | none => none

/-! ### Whitespace handling (`re.sub(r'\s+', ' ')` + `str.strip`) -/

/-- Collapse every maximal whitespace run to one space: the flag records
whether the previous character was whitespace (then further whitespace is
swallowed). -/
def collapseWsGo : Bool → List Char → List Char
  | _, [] => []
  | prevWs, c :: t =>
    if isPySpace c then
      (if prevWs then collapseWsGo true t else ' ' :: collapseWsGo true t)
    else c :: collapseWsGo false t

/-- `re.sub(r'\s+', ' ', s)`. -/
def collapseWs (l : List Char) : List Char := collapseWsGo false l

/-- `str.strip()`. -/
def pyStrip (l : List Char) : List Char :=
  ((l.dropWhile isPySpace).reverse.dropWhile isPySpace).reverse

/-- Lines 40-41 / 101-102 of the script: collapse whitespace runs, then
strip both ends. -/
def wsNormalize (l : List Char) : List Char := pyStrip (collapseWs l)

/-! ### The markup translator (`convert_latex_to_pretext`, lines 12-104).

Every `re.sub` of the source is one matcher below, in source order.  Each
matcher realises the deterministic semantics of its concrete pattern
(greedy classes that exclude the following required character never
backtrack; non-greedy `.*?` takes the first occurrence of what follows). -/

/-- The private ampersand placeholder of `protect_math_env`. -/
def phLit : List Char := "¤AMPERSAND¤".toList

/-- `\\FigureFullPath\[([^\]]+)\]\{[^}]+\}\{[^}]+\}` → `[Figure: \1]`. -/
def figureFullPathM (cs : List Char) : Option (List Char × Nat) := do
  let r0 ← litP ("\\FigureFullPath[".toList) cs
  let (lbl, r1) ← classP (fun c => !(c == ']')) r0
  let r2 ← charP ']' r1
  let r3 ← charP obr r2
  let (_, r4) ← classP (fun c => !(c == cbr)) r3
  let r5 ← charP cbr r4
  let r6 ← charP obr r5
  let (_, r7) ← classP (fun c => !(c == cbr)) r6
  let r8 ← charP cbr r7
  some ("[Figure: ".toList ++ lbl ++ [']'], cs.length - r8.length)

/-- `\\Figure\[[^\]]+\]\{[^}]+\}` → `[Figure]`. -/
def figureM (cs : List Char) : Option (List Char × Nat) := do
  let r0 ← litP ("\\Figure[".toList) cs
  let (_, r1) ← classP (fun c => !(c == ']')) r0
  let r2 ← charP ']' r1
  let r3 ← charP obr r2
  let (_, r4) ← classP (fun c => !(c == cbr)) r3
  let r5 ← charP cbr r4
  some ("[Figure]".toList, cs.length - r5.length)

/-- `\begin{align*}` literal. -/
def beginAlignLit : List Char := "\\begin\x7balign*\x7d".toList

/-- `\end{align*}` literal. -/
def endAlignLit : List Char := "\\end\x7balign*\x7d".toList

/-- `protect_math_env`: the body with `&` replaced by the placeholder,
wrapped in a `[Math: ...]` bracket. -/
def mathPlaceholder (body : List Char) : List Char :=
  "[Math: ".toList ++ replaceAll ['&'] phLit body ++ [']']

/-- `\\begin\{align\*\}(.*?)\\end\{align\*\}` (DOTALL, non-greedy) with
`protect_math_env` as replacement. -/
def alignM (cs : List Char) : Option (List Char × Nat) := do
  let r0 ← litP beginAlignLit cs
  let k ← findSub endAlignLit r0
  some (mathPlaceholder (r0.take k),
    beginAlignLit.length + k + endAlignLit.length)

/-- `\{\\footnotesize\\begin\{align\*\}(.*?)\\end\{align\*\}\}` with
`protect_math_env` as replacement. -/
def footAlignM (cs : List Char) : Option (List Char × Nat) := do
  let pfx := ("\x7b\\footnotesize".toList ++ beginAlignLit)
  let r0 ← litP pfx cs
  let k ← findSub (endAlignLit ++ [cbr]) r0
  some (mathPlaceholder (r0.take k), pfx.length + k + endAlignLit.length + 1)

/-- `\\\\\s*\.` → `.` (a LaTeX line break followed by a period). -/
def breakDotM (cs : List Char) : Option (List Char × Nat) := do
  let r0 ← litP ("\\\\".toList) cs
  let r1 := r0.drop (r0.takeWhile isPySpace).length
  let r2 ← charP '.' r1
  some (['.'], cs.length - r2.length)

/-- `\\\\\s*\n` → ` `: after the break, the greedy `\s*` backtracks to the
last newline of the maximal whitespace run. -/
def breakNlM (cs : List Char) : Option (List Char × Nat) := do
  let r0 ← litP ("\\\\".toList) cs
  let w := r0.takeWhile isPySpace
  match lastNl w with
  | some k => some ([' '], 2 + k + 1)
  | none => none

/-- `\\emph\{([^}]+)\}` → `<em>...</em>`. -/
def emphM (cs : List Char) : Option (List Char × Nat) := do
  let r0 ← litP ("\\emph".toList ++ [obr]) cs
  let (b, r1) ← classP (fun c => !(c == cbr)) r0
  let r2 ← charP cbr r1
  some ("<em>".toList ++ b ++ "</em>".toList, cs.length - r2.length)

/-- `\\textbf\{([^}]+)\}` → `<alert>...</alert>`. -/
def textbfM (cs : List Char) : Option (List Char × Nat) := do
  let r0 ← litP ("\\textbf".toList ++ [obr]) cs
  let (b, r1) ← classP (fun c => !(c == cbr)) r0
  let r2 ← charP cbr r1
  some ("<alert>".toList ++ b ++ "</alert>".toList, cs.length - r2.length)

/-- The backtick character. -/
def btick : Char := Char.ofNat 96

/-- The apostrophe character. -/
def apos : Char := Char.ofNat 39

/-- Index of the last adjacent pair of apostrophes. -/
def lastTwoApos : List Char → Option Nat
  | a :: b :: t =>
    (match lastTwoApos (b :: t) with
     | some j => some (j+1)
     | none => if a = apos ∧ b = apos then some 0 else none)
  | _ => none

/-- Backtick-quote pattern with apostrophe closing: the greedy class
(which contains the apostrophe) backtracks to the last adjacent pair of
apostrophes inside the run, and the quoted content must be nonempty. -/
def quoteAposM (cs : List Char) : Option (List Char × Nat) := do
  let r0 ← litP [btick, btick] cs
  let bigR := r0.takeWhile (fun c => !(c == '"') && !(c == btick))
  match lastTwoApos bigR with
  | some k =>
    if 1 ≤ k then some ("<q>".toList ++ bigR.take k ++ "</q>".toList, 2 + k + 2)
    else none
  | none => none

/-- Backtick-quote pattern closed by a double-quote character. -/
def quoteDblM (cs : List Char) : Option (List Char × Nat) := do
  let r0 ← litP [btick, btick] cs
  let (bigR, r1) ← classP (fun c => !(c == '"') && !(c == btick)) r0
  let r2 ← charP '"' r1
  some ("<q>".toList ++ bigR ++ "</q>".toList, cs.length - r2.length)

/-- `escape_figure_quotes` on `\[Figure: ([^\]]+)\]`. -/
def figureQuoteM (cs : List Char) : Option (List Char × Nat) := do
  let r0 ← litP ("[Figure: ".toList) cs
  let (b, r1) ← classP (fun c => !(c == ']')) r0
  let r2 ← charP ']' r1
  some ("[Figure: ".toList ++ replaceAll ['"'] ("&quot;".toList) b ++ [']'],
    cs.length - r2.length)

/-- The `<`/`>`/placeholder rewriting of `escape_math_markup`. -/
def mathEscBody (b : List Char) : List Char :=
  replaceAll phLit ("&amp;".toList)
    (replaceAll ['>'] ("&gt;".toList) (replaceAll ['<'] ("&lt;".toList) b))

/-- `escape_math_markup` on `\[Math: ([^\]]+)\]`. -/
def mathEscM (cs : List Char) : Option (List Char × Nat) :=
  match litP ("[Math: ".toList) cs with
  | none => none
  | some r0 =>
    match classP (fun c => !(c == ']')) r0 with
    | none => none
    | some (b, r1) =>
      match charP ']' r1 with
      | none => none
      | some r2 =>
        some ("[Math: ".toList ++ mathEscBody b ++ [']'], cs.length - r2.length)

/-- The `<`/`>` rewriting of `replace_math` (escaped-command form). -/
def inlineMathBody (b : List Char) : List Char :=
  replaceAll ['>'] ("\\gt".toList) (replaceAll ['<'] ("\\lt".toList) b)

/-- `\$([^\$]+)\$` with `replace_math` as replacement. -/
def inlineMathM (cs : List Char) : Option (List Char × Nat) :=
  match charP '$' cs with
  | none => none
  | some r0 =>
    match classP (fun c => !(c == '$')) r0 with
    | none => none
    | some (b, r1) =>
      match charP '$' r1 with
      | none => none
      | some r2 =>
        some ("<m>".toList ++ inlineMathBody b ++ "</m>".toList,
          cs.length - r2.length)

/-- Negative-lookahead test of the final ampersand pass: is the text after
an `&` the tail of a known entity? -/
def entityTail (t : List Char) : Bool :=
  ("amp;".toList.isPrefixOf t) || ("lt;".toList.isPrefixOf t) ||
  ("gt;".toList.isPrefixOf t) || ("quot;".toList.isPrefixOf t) ||
  ("apos;".toList.isPrefixOf t)

/-- `re.sub(r'&(?!amp;|lt;|gt;|quot;|apos;)', '&amp;', s)`. -/
def ampEsc : List Char → List Char
  | [] => []
  | c :: t =>
    if c = '&' ∧ entityTail t = false then "&amp;".toList ++ ampEsc t
    else c :: ampEsc t

/-- Length of a protected-tag separator `<tag>.*?</tag>` (no DOTALL). -/
def tagNoNlLen (opn cls : List Char) (cs : List Char) : Option Nat := do
  let r0 ← litP opn cs
  let k ← findSubNoNl cls r0
  some (opn.length + k + cls.length)

/-- Length of a protected-bracket separator `\[Pfx[^\]]+\]`. -/
def brLen (pfx : List Char) (cs : List Char) : Option Nat := do
  let r0 ← litP pfx cs
  let (_, r1) ← classP (fun c => !(c == ']')) r0
  let r2 ← charP ']' r1
  some (cs.length - r2.length)

/-- The ordered separator alternation of the `re.split` on line 92. -/
def sepM (cs : List Char) : Option Nat :=
  (tagNoNlLen ("<m>".toList) ("</m>".toList) cs).orElse fun _ =>
  (tagNoNlLen ("<em>".toList) ("</em>".toList) cs).orElse fun _ =>
  (tagNoNlLen ("<alert>".toList) ("</alert>".toList) cs).orElse fun _ =>
  (tagNoNlLen ("<q>".toList) ("</q>".toList) cs).orElse fun _ =>
  (brLen ("[Figure:".toList) cs).orElse fun _ =>
  brLen ("[Math:".toList) cs

/-- The plain text before the next separator (and the rest). -/
def takePlain : List Char → List Char × List Char
  | [] => ([], [])
  | c :: t =>
    if (sepM (c :: t)).isSome then ([], c :: t)
    else
      let p := takePlain t
      (c :: p.1, p.2)

/-- Escaping of one plain `re.split` part: parts starting with `<` or `[`
are skipped (the `startswith` test of lines 94-95). -/
def escSeg : List Char → List Char
  | [] => []
  | c :: t => if c = '<' ∨ c = '[' then c :: t else ampEsc (c :: t)

/-- The split/escape/join pass of lines 92-98: separators are kept
verbatim, plain segments are ampersand-escaped unless they start with `<`
or `[`. -/
def ampSegsGo : Nat → List Char → List Char
  | _, [] => []
  | 0, l => l
  | fuel+1, c :: t =>
    match sepM (c :: t) with
    | some n =>
      if n = 0 then escSeg (takePlain (c :: t)).1 ++ ampSegsGo fuel (takePlain (c :: t)).2
      else (c :: t).take n ++ ampSegsGo fuel ((c :: t).drop n)
    | none => escSeg (takePlain (c :: t)).1 ++ ampSegsGo fuel (takePlain (c :: t)).2

/-- Whole-string split/escape/join pass. -/
def ampEscSegs (l : List Char) : List Char := ampSegsGo l.length l

/-- `convert_latex_to_pretext` (lines 12-104): the fixed, ordered sequence
of rewrites of the source, one stage per statement. -/
def convert_latex_to_pretext (latex_content : List Char) : List Char :=
  let c1 := subAll figureFullPathM latex_content
  let c2 := subAll figureM c1
  let c3 := subAll alignM c2
  let c4 := subAll footAlignM c3
  let c5 := subAll breakDotM c4
  let c6 := subAll breakNlM c5
  let c7 := replaceAll ("\\\\".toList) [] c6
  let c8 := wsNormalize c7
  let c9 := c8.map (fun ch => if ch = '~' then ' ' else ch)
  let c10 := subAll emphM c9
  let c11 := subAll textbfM c10
  let c12 := subAll quoteAposM c11
  let c13 := subAll quoteDblM c12
  let c14 := subAll figureQuoteM c13
  let c15 := subAll mathEscM c14
  let c16 := replaceAll ("\\rightarrow".toList) ("\\to".toList) c15
  let c17 := subAll inlineMathM c16
  let c18 := ampEscSegs c17
  wsNormalize c18

/-! ### The solutions scanner (`parse_solutions`, lines 135-192) -/

/-- The leading whitespace run of the exercise-number pattern
`%\s*(\d+)\s*\n`. -/
def cmW1 (r : List Char) : List Char := r.takeWhile isPySpace

/-- The digit group of the exercise-number pattern. -/
def cmDigits (r : List Char) : List Char :=
  (r.drop (cmW1 r).length).takeWhile Char.isDigit

/-- The whitespace run after the digit group. -/
def cmW2 (r : List Char) : List Char :=
  ((r.drop (cmW1 r).length).drop (cmDigits r).length).takeWhile isPySpace

/-- Matcher of `%\s*(\d+)\s*\n` at the current position, continued: `%`,
greedy whitespace `cmW1`, a nonempty digit run `cmDigits` (the group), then
whitespace up to and including the last newline of the run `cmW2` (the
greedy `\s*` backtracks to the last `\n`). -/
def commentMatchAt (cs : List Char) : Option (List Char × Nat) :=
  match cs with
  | '%' :: r =>
    if cmDigits r = [] then none
    else
      match lastNl (cmW2 r) with
      | some k =>
        some (cmDigits r, 1 + (cmW1 r).length + (cmDigits r).length + (k + 1))
      | none => none
  | _ => none

/-- Matcher of `\\eocesol\s*\{` at the current position. -/
def eocesolMatchAt (cs : List Char) : Option (Unit × Nat) :=
  match litP ("\\eocesol".toList) cs with
  | none => none
  | some r0 =>
    match charP obr (r0.drop (r0.takeWhile isPySpace).length) with
    | none => none
    | some _ => some ((), 8 + (r0.takeWhile isPySpace).length + 1)

/-- `re.search(r'%\s*(\d+)\s*\n', s)`. -/
def commentSearch (cs : List Char) : Option (List Char × Nat × Nat) :=
  searchPair commentMatchAt cs

/-- `re.search(r'\\eocesol\s*\{', s)`. -/
def eocesolSearch (cs : List Char) : Option (Unit × Nat × Nat) :=
  searchPair eocesolMatchAt cs

/-- One iteration of the `while pos < len(chapter_content)` loop of
`parse_solutions`: `none` means the loop breaks; otherwise the optional
entry appended on this iteration and the next scan position. -/
def scanStep (content : List Char) (pos : Nat) :
    Option (Option (List Char × List Char) × Nat) :=
  if pos < content.length then
    match commentSearch (content.drop pos) with
    | none => none
    | some (num, _, cend) =>
      match eocesolSearch (content.drop (pos + cend)) with
      | none => some (none, pos + cend)
      | some (_, _, eend) =>
        match (extract_braced_content content (pos + cend + eend - 1)).1 with
        | some s =>
          some ((if s = [] then none else some (num, s)), pos + cend + eend)
        | none => some (none, pos + cend + eend)
  else none

/-- The scanning loop, fueled (each iteration advances the position by at
least one, so `length + 1` fuel never runs out). -/
def scanLoop (content : List Char) : Nat → Nat → List (List Char × List Char)
  | 0, _ => []
  | fuel+1, pos =>
    match scanStep content pos with
    | none => []
    | some (eo, p2) =>
      (match eo with | some e => [e] | none => []) ++ scanLoop content fuel p2

/-- All solutions of one chapter span. -/
def scanChapter (content : List Char) : List (List Char × List Char) :=
  scanLoop content (content.length + 1) 0

/-- Instrumented variant of `scanStep` that also records the absolute
position of the exercise-number annotation that produced an entry;
used only to state and prove the source-order property. -/
def scanStepP (content : List Char) (pos : Nat) :
    Option (Option (Nat × List Char × List Char) × Nat) :=
  if pos < content.length then
    match commentSearch (content.drop pos) with
    | none => none
    | some (num, cstart, cend) =>
      match eocesolSearch (content.drop (pos + cend)) with
      | none => some (none, pos + cend)
      | some (_, _, eend) =>
        match (extract_braced_content content (pos + cend + eend - 1)).1 with
        | some s =>
          some ((if s = [] then none else some (pos + cstart, num, s)),
            pos + cend + eend)
        | none => some (none, pos + cend + eend)
  else none

/-- Instrumented scanning loop. -/
def scanLoopP (content : List Char) : Nat → Nat → List (Nat × List Char × List Char)
  | 0, _ => []
  | fuel+1, pos =>
    match scanStepP content pos with
    | none => []
    | some (eo, p2) =>
      (match eo with | some e => [e] | none => []) ++ scanLoopP content fuel p2

/-- Matcher of the chapter pattern `\\eocesolch\{([^}]+)\}`. -/
def chMatchAt (cs : List Char) : Option (List Char × Nat) := do
  let r0 ← litP ("\\eocesolch".toList ++ [obr]) cs
  let (name, r1) ← classP (fun c => !(c == cbr)) r0
  let r2 ← charP cbr r1
  some (name, cs.length - r2.length)

/-- `re.finditer` of the chapter pattern: non-overlapping matches with
their absolute start and end positions. -/
def findChaptersGo : Nat → List Char → Nat → List (Nat × List Char × Nat)
  | _, [], _ => []
  | 0, _, _ => []
  | fuel+1, c :: t, abs =>
    match chMatchAt (c :: t) with
    | some (name, n) =>
      if n = 0 then findChaptersGo fuel t (abs+1)
      else (abs, name, abs + n) :: findChaptersGo fuel ((c :: t).drop n) (abs + n)
    | none => findChaptersGo fuel t (abs + 1)

/-- All chapter-marker matches of a document. -/
def findChapters (l : List Char) : List (Nat × List Char × Nat) :=
  findChaptersGo l.length l 0

/-- Each chapter's name together with its span: from the end of its
marker to the start of the next marker (or the end of the document). -/
def chapterSpans (content : List Char) :
    List (Nat × List Char × Nat) → List (List Char × List Char)
  | [] => []
  | (_, name, e) :: rest =>
    (name, (content.drop e).take ((match rest with
      | (s2, _, _) :: _ => s2
      | [] => content.length) - e)) :: chapterSpans content rest

/-- `parse_solutions` on in-memory file content: the chapters in order,
each with its scanned solutions. -/
def parse_solutions (content : List Char) :
    List (List Char × List (List Char × List Char)) :=
  (chapterSpans content (findChapters content)).map
    (fun p => (p.1, scanChapter p.2))

/-! ### The document assembler (lines 195-297) -/

/-- Matcher of the multi-part pattern `\(([a-z])\)\s*`. -/
def abM (cs : List Char) : Option (List Char × Nat) :=
  match cs with
  | '(' :: l :: ')' :: r =>
    if 'a' ≤ l ∧ l ≤ 'z' then some ([l], 3 + (r.takeWhile isPySpace).length)
    else none
  | _ => none

/-- Prepend a character to the first part of a split result. -/
def consHead (c : Char) : List (List Char) → List (List Char)
  | p :: ps => (c :: p) :: ps
  | [] => [[c]]

/-- `re.split(r'\(([a-z])\)\s*', s)` with its one capturing group: plain
parts alternating with captured letters. -/
def splitAbGo : Nat → List Char → List (List Char)
  | _, [] => [[]]
  | 0, l => [l]
  | fuel+1, c :: t =>
    match abM (c :: t) with
    | some (letter, n) =>
      if n = 0 then consHead c (splitAbGo fuel t)
      else [] :: letter :: splitAbGo fuel ((c :: t).drop n)
    | none => consHead c (splitAbGo fuel t)

/-- Whole-string multi-part split. -/
def splitAb (l : List Char) : List (List Char) := splitAbGo l.length l

/-- `re.sub(r'\.\s*$', '', text)`: remove a final period (and any
whitespace after it), if present. -/
def stripTrailingDot (t : List Char) : List Char :=
  match t.reverse.dropWhile isPySpace with
  | c :: r3 => if c = '.' then r3.reverse else t
  | [] => t

/-- One `<li>` body: strip, drop the trailing period, translate, then put
a period back if the translation does not end in one. -/
def pretextItem (text : List Char) : List Char :=
  let conv := convert_latex_to_pretext (stripTrailingDot (pyStrip text))
  if conv.getLast? = some '.' then conv else conv ++ ['.']

/-- The `<li>` lines from the letter/text pairs of the split. -/
def liLines : List (List Char) → List (List Char)
  | _ :: text :: rest =>
    ("          <li>".toList ++ pretextItem text ++ "</li>".toList) :: liLines rest
  | _ => []

/-- `'\n'.join`. -/
def joinNl : List (List Char) → List Char
  | [] => []
  | [l] => l
  | l :: ls => l ++ '\n' :: joinNl ls

/-- `str.title()` for ASCII text: the flag records whether the previous
character was a letter. -/
def pyTitleGo : Bool → List Char → List Char
  | _, [] => []
  | prev, c :: t =>
    if c.isAlpha then
      (if prev then c.toLower else c.toUpper) :: pyTitleGo true t
    else c :: pyTitleGo false t

/-- `str.title()`. -/
def pyTitle (l : List Char) : List Char := pyTitleGo false l

/-- The static chapter-name-to-identifier table with its fallback. -/
def chapterId (name : List Char) : List Char :=
  if name = "Introduction to data".toList then "ch01".toList
  else if name = "Summarizing data".toList then "ch02".toList
  else if name = "Probability".toList then "ch03".toList
  else if name = "Distributions of random variables".toList then "ch04".toList
  else if name = "Foundations for inference".toList then "ch05".toList
  else if name = "Inference for categorical data".toList then "ch06".toList
  else if name = "Inference for numerical data".toList then "ch07".toList
  else if name = "Introduction to linear regression".toList then "ch08".toList
  else if name = "Multiple and logistic regression".toList then "ch09".toList
  else "chXX".toList

/-- `create_pretext_solution` (lines 195-241). -/
def create_pretext_solution (exercise_num solution_text : List Char) : List Char :=
  let parts := splitAb solution_text
  if 1 < parts.length ∧ pyStrip (parts.headD []) = [] then
    joinNl (["    <solution>".toList,
      "      <title>Exercise ".toList ++ exercise_num ++ "</title>".toList,
      "      <p>".toList,
      "        <ol marker=\"(a)\">".toList] ++
      liLines (parts.drop 1) ++
      ["        </ol>".toList, "      </p>".toList, "    </solution>".toList])
  else
    joinNl (["    <solution>".toList,
      "      <title>Exercise ".toList ++ exercise_num ++ "</title>".toList,
      "      <p>".toList,
      "        ".toList ++ convert_latex_to_pretext solution_text,
      "      </p>".toList,
      "    </solution>".toList])

/-- The fixed document header of `generate_pretext_file`. -/
def headerLines : List (List Char) := [
  "<?xml version=\"1.0\" encoding=\"UTF-8\" ?>".toList,
  [],
  "<appendix xmlns:xi=\"http://www.w3.org/2001/XInclude\" xml:id=\"appendix-solutions\">".toList,
  "  <title>Exercise Solutions</title>".toList,
  [],
  "  <introduction>".toList,
  "    <p>".toList,
  "      This appendix contains solutions to selected odd-numbered exercises from each chapter.".toList,
  "      These solutions are provided to help you check your work and understand the problem-solving process.".toList,
  "    </p>".toList,
  "  </introduction>".toList,
  []]

/-- The lines of one chapter's solutions (each followed by a blank line). -/
def solutionBlocks : List (List Char × List Char) → List (List Char)
  | [] => []
  | (num, text) :: rest =>
    create_pretext_solution num text :: [] :: solutionBlocks rest

/-- The lines of all chapter sections. -/
def chapterBlocks : List (List Char × List (List Char × List Char)) → List (List Char)
  | [] => []
  | (name, sols) :: rest =>
    (("  <section xml:id=\"solutions-".toList ++ chapterId name ++ "\">".toList) ::
     ("    <title>".toList ++ pyTitle name ++ "</title>".toList) ::
     ([] : List Char) ::
     (solutionBlocks sols ++ ["  </section>".toList, []])) ++ chapterBlocks rest

/-- `generate_pretext_file` without the file write: the full document
string that is written in one call. -/
def generate_pretext (chapters : List (List Char × List (List Char × List Char))) :
    List Char :=
  joinNl (headerLines ++ chapterBlocks chapters ++ ["</appendix>".toList])

/-! ### `main` as an event trace (lines 300-311) -/

/-- The externally visible file events of one run. -/
inductive FileEv where
  | readInput : FileEv
  | writeOutput : List Char → FileEv
deriving DecidableEq

/-- Is an event a write to the output file? -/
def isWrite : FileEv → Bool
  | FileEv.writeOutput _ => true
  | FileEv.readInput => false

/-- One run of `main`, over an abstract input file (`none` = missing):
a missing input raises inside `parse_solutions` before the output file is
ever opened; otherwise the whole document is built in memory and written
in a single call.  Returns the event trace and whether the run succeeded. -/
def run_main (input : Option (List Char)) : List FileEv × Bool :=
  match input with
  | none => ([FileEv.readInput], false)
  | some c =>
    ([FileEv.readInput,
      FileEv.writeOutput (generate_pretext (parse_solutions c))], true)

/-! ### Lemmas about the extractor -/

/-- Running the loop over a balanced block `l ++ cbr :: r`: if the depth `d`
is at least 1, stays at least 1 after every prefix of `l`, and returns to
exactly 1 at the closing brace, the loop pushes all of `l` verbatim and
stops just past that closing brace. -/
theorem ebcLoop_close (l : List Char) :
    ∀ (r : List Char) (i : Nat) (acc : List Char) (d : Int),
    1 ≤ d →
    (∀ n, n ≤ l.length →
      ((l.take n).count cbr : Int) ≤ (l.take n).count obr + (d - 1)) →
    ((l.count obr : Int) + d = (l.count cbr : Int) + 1) →
    ebcLoop i d acc (l ++ cbr :: r) = (some (acc.reverse ++ l), i + l.length + 1) := by
  induction l with
  | nil =>
    intro r i acc d hd hpre hfin
    simp at hfin
    have hne : ¬ (cbr = obr) := by decide
    simp [ebcLoop, hne, hfin]
  | cons c t ih =>
    intro r i acc d hd hpre hfin
    by_cases hob : c = obr
    · subst hob
      rw [List.cons_append]
      rw [show ebcLoop i d acc (obr :: (t ++ cbr :: r)) =
        ebcLoop (i+1) (d+1) (if d + 1 > 1 then obr :: acc else acc) (t ++ cbr :: r) from by
          simp [ebcLoop]]
      rw [if_pos (by omega)]
      rw [ih r (i+1) (obr :: acc) (d+1) (by omega)
        (fun n hn => by
          have h := hpre (n+1) (by simpa using hn)
          rw [List.take_succ_cons] at h
          simp only [List.count_cons] at h
          simp [show obr ≠ cbr from by decide, show cbr ≠ obr from by decide] at h
          omega)
        (by
          have h := hfin
          simp only [List.count_cons] at h
          simp [show obr ≠ cbr from by decide, show cbr ≠ obr from by decide] at h
          omega)]
      simp only [Prod.mk.injEq, Option.some.injEq]
      exact ⟨by simp, by simp only [List.length_cons, List.length_append]; omega⟩
    · by_cases hcb : c = cbr
      · subst hcb
        have h1 := hpre 1 (by simp)
        rw [show (cbr :: t).take 1 = [cbr] from rfl] at h1
        rw [show ([cbr].count cbr) = 1 from by decide,
            show ([cbr].count obr) = 0 from by decide] at h1
        have hd2 : (2:Int) ≤ d := by omega
        rw [List.cons_append]
        rw [show ebcLoop i d acc (cbr :: (t ++ cbr :: r)) =
          (if d - 1 = 0 then (some acc.reverse, i+1)
            else ebcLoop (i+1) (d-1) (cbr :: acc) (t ++ cbr :: r)) from by
            have hne : ¬ (cbr = obr) := by decide
            simp [ebcLoop, hne]]
        rw [if_neg (by omega)]
        rw [ih r (i+1) (cbr :: acc) (d-1) (by omega)
          (fun n hn => by
            have h := hpre (n+1) (by simpa using hn)
            rw [List.take_succ_cons] at h
            simp only [List.count_cons] at h
            simp [show obr ≠ cbr from by decide, show cbr ≠ obr from by decide] at h
            omega)
          (by
            have h := hfin
            simp only [List.count_cons] at h
            simp [show obr ≠ cbr from by decide, show cbr ≠ obr from by decide] at h
            omega)]
        simp only [Prod.mk.injEq, Option.some.injEq]
        exact ⟨by simp, by simp only [List.length_cons, List.length_append]; omega⟩
      · rw [List.cons_append]
        rw [show ebcLoop i d acc (c :: (t ++ cbr :: r)) =
          ebcLoop (i+1) d (if d > 0 then c :: acc else acc) (t ++ cbr :: r) from by
            simp [ebcLoop, hob, hcb]]
        rw [if_pos (by omega)]
        rw [ih r (i+1) (c :: acc) d hd
          (fun n hn => by
            have h := hpre (n+1) (by simpa using hn)
            rw [List.take_succ_cons] at h
            simp only [List.count_cons] at h
            simp [hob, hcb] at h
            omega)
          (by
            have h := hfin
            simp only [List.count_cons] at h
            simp [hob, hcb] at h
            omega)]
        simp only [Prod.mk.injEq, Option.some.injEq]
        exact ⟨by simp, by simp only [List.length_cons, List.length_append]; omega⟩

/-- Claim C2: if the character at the start position is an opening brace and
the braces from that position onward are balanced (written out: the text
from `s` is `obr :: inner ++ cbr :: rest` where within `inner` the closing
count never exceeds the opening count and the two are equal overall), then
`extract_braced_content` returns exactly `inner` — every nested brace
preserved verbatim, exactly the outermost pair stripped — paired with the
position just past the outer closing brace. -/
theorem C2_extract_braced_spec (text : List Char) (s : Nat) (inner rest : List Char)
    (hdrop : text.drop s = obr :: (inner ++ cbr :: rest))
    (hpre : ∀ n, n ≤ inner.length →
      (inner.take n).count cbr ≤ (inner.take n).count obr)
    (hbal : inner.count obr = inner.count cbr) :
    extract_braced_content text s = (some inner, s + (inner.length + 2)) := by
  have hlen : s < text.length := by
    by_contra h
    have : text.drop s = [] := List.drop_eq_nil_of_le (by omega)
    rw [this] at hdrop
    exact absurd hdrop (by simp)
  have hget : text[s]? = some obr := by
    have h0 : (text.drop s)[0]? = text[s]? := by
      simp [List.getElem?_drop]
    rw [hdrop] at h0
    simpa using h0.symm
  rw [extract_braced_content, if_pos ⟨hlen, hget⟩, hdrop]
  rw [show ebcLoop s 0 [] (obr :: (inner ++ cbr :: rest)) =
    ebcLoop (s+1) 1 [] (inner ++ cbr :: rest) from by
      simp [ebcLoop]]
  rw [ebcLoop_close inner rest (s+1) [] 1 (by omega)
    (fun n hn => by have := hpre n hn; omega)
    (by omega)]
  simp only [Prod.mk.injEq, Option.some.injEq]
  exact ⟨by simp, by omega⟩

/-- Witness for C2 at the concrete text `a{b{c}d}e` with start position 1:
the extracted content is `b{c}d` and the returned position is 8. -/
theorem C2_extract_braced_spec_witness :
    extract_braced_content ("a\x7bb\x7bc\x7dd\x7de".toList) 1 =
      (some ("b\x7bc\x7dd".toList), 8) := by
  rw [C2_extract_braced_spec ("a\x7bb\x7bc\x7dd\x7de".toList) 1
    ("b\x7bc\x7dd".toList) ("e".toList)
    (by decide) (by decide) (by decide)]
  decide

/-! ### Whitespace-normalization lemmas -/

theorem collapse_good (l : List Char) : ∀ (b : Bool),
    (∀ c ∈ collapseWsGo b l, isPySpace c = true → c = ' ') ∧
    (collapseWsGo b l).Chain' (fun a b' => ¬(isPySpace a = true ∧ isPySpace b' = true)) ∧
    (b = true → ∀ c, (collapseWsGo b l).head? = some c → isPySpace c = false) := by
  induction l with
  | nil =>
    intro b
    refine ⟨by simp [collapseWsGo], by simp [collapseWsGo], by simp [collapseWsGo]⟩
  | cons a t ih =>
    intro b
    by_cases ha : isPySpace a
    · cases b with
      | true =>
        have he : collapseWsGo true (a :: t) = collapseWsGo true t := by
          simp [collapseWsGo, ha]
        rw [he]
        exact ih true
      | false =>
        have he : collapseWsGo false (a :: t) = ' ' :: collapseWsGo true t := by
          simp [collapseWsGo, ha]
        rw [he]
        obtain ⟨ih1, ih2, ih3⟩ := ih true
        refine ⟨?_, ?_, ?_⟩
        · intro c hc hv
          rcases List.mem_cons.mp hc with h | h
          · exact h
          · exact ih1 c h hv
        · rw [List.chain'_cons']
          refine ⟨?_, ih2⟩
          intro y hy
          have hys := ih3 rfl y hy
          simp [hys]
        · intro hb
          exact absurd hb (by simp)
    · have he : collapseWsGo b (a :: t) = a :: collapseWsGo false t := by
        simp [collapseWsGo, ha]
      rw [he]
      obtain ⟨ih1, ih2, _⟩ := ih false
      refine ⟨?_, ?_, ?_⟩
      · intro c hc hv
        rcases List.mem_cons.mp hc with h | h
        · subst h; exact absurd hv (by simp [ha])
        · exact ih1 c h hv
      · rw [List.chain'_cons']
        refine ⟨?_, ih2⟩
        intro y _
        simp [ha]
      · intro _ c hc
        have hac : a = c := by simpa using hc
        subst hac
        simpa using ha

theorem collapse_fix (l : List Char) :
    (∀ c ∈ l, isPySpace c = true → c = ' ') →
    l.Chain' (fun a b' => ¬(isPySpace a = true ∧ isPySpace b' = true)) →
    (collapseWsGo false l = l ∧
     ((∀ c, l.head? = some c → isPySpace c = false) → collapseWsGo true l = l)) := by
  induction l with
  | nil => intro _ _; exact ⟨rfl, fun _ => rfl⟩
  | cons a t ih =>
    intro h1 h2
    have h1t : ∀ c ∈ t, isPySpace c = true → c = ' ' :=
      fun c hc => h1 c (List.mem_cons_of_mem _ hc)
    obtain ⟨ihf, iht⟩ := ih h1t (List.Chain'.tail h2)
    by_cases ha : isPySpace a
    · have haa : a = ' ' := h1 a (List.mem_cons_self _ _) ha
      have hhead : ∀ c, t.head? = some c → isPySpace c = false := by
        intro c hc
        have hrel := (List.chain'_cons'.mp h2).1 c hc
        simp [ha] at hrel
        simpa using hrel
      have htt : collapseWsGo true t = t := iht hhead
      constructor
      · rw [show collapseWsGo false (a :: t) = ' ' :: collapseWsGo true t from by
          simp [collapseWsGo, ha]]
        rw [htt, haa]
      · intro hh
        exact absurd (hh a (by simp)) (by simp [ha])
    · constructor
      · rw [show collapseWsGo false (a :: t) = a :: collapseWsGo false t from by
          simp [collapseWsGo, ha]]
        rw [ihf]
      · intro _
        rw [show collapseWsGo true (a :: t) = a :: collapseWsGo false t from by
          simp [collapseWsGo, ha]]
        rw [ihf]

theorem pyStrip_eq (l : List Char) :
    pyStrip l = List.rdropWhile isPySpace (l.dropWhile isPySpace) := rfl

theorem pyStrip_idem (l : List Char) : pyStrip (pyStrip l) = pyStrip l := by
  simp only [pyStrip_eq]
  rcases hsl : List.rdropWhile isPySpace (l.dropWhile isPySpace) with _ | ⟨c, s'⟩
  · simp [List.rdropWhile]
  · have hc : isPySpace c = false := by
      obtain ⟨t, ht⟩ := List.rdropWhile_prefix isPySpace (l.dropWhile isPySpace)
      rw [hsl] at ht
      have h0 : 0 < (l.dropWhile isPySpace).length := by
        rw [← ht]; simp
      have hnot := List.dropWhile_get_zero_not (p := isPySpace) l h0
      have hget : (l.dropWhile isPySpace).get ⟨0, h0⟩ = c := by
        have hq : (l.dropWhile isPySpace)[0]? = some c := by
          rw [← ht]; simp
        have hq2 := List.getElem?_eq_getElem h0
        rw [hq] at hq2
        simpa [List.get_eq_getElem] using hq2.symm
      rw [hget] at hnot
      simpa using hnot
    rw [List.dropWhile_cons_of_neg (by simp [hc])]
    have hid := List.rdropWhile_idempotent isPySpace (l.dropWhile isPySpace)
    rw [hsl] at hid
    exact hid

theorem mem_pyStrip {c : Char} {l : List Char} (h : c ∈ pyStrip l) : c ∈ l := by
  rw [pyStrip_eq] at h
  obtain ⟨t, ht⟩ := List.rdropWhile_prefix isPySpace (l.dropWhile isPySpace)
  have h2 : c ∈ l.dropWhile isPySpace := by
    rw [← ht]; exact List.mem_append_left _ h
  exact List.dropWhile_subset _ h2

theorem chain_pyStrip {R : Char → Char → Prop} {l : List Char}
    (h : l.Chain' R) : (pyStrip l).Chain' R := by
  have h1 : (l.dropWhile isPySpace).Chain' R :=
    List.Chain'.suffix h (List.dropWhile_suffix _)
  rw [pyStrip_eq, List.rdropWhile, List.chain'_reverse]
  have h2 : ((l.dropWhile isPySpace).reverse).Chain' (flip R) := by
    rw [List.chain'_reverse]
    exact h1
  exact List.Chain'.suffix h2 (List.dropWhile_suffix _)

/-- Claim C5 (amended): the whitespace-normalization stage of the translator
(collapse whitespace runs, then strip the ends — the step applied on lines
40-41 and again on lines 101-102) is idempotent.  The full translator is
not idempotent; see the counterexample. -/
theorem C5_wsNormalize_idem (l : List Char) :
    wsNormalize (wsNormalize l) = wsNormalize l := by
  obtain ⟨g1, g2, _⟩ := collapse_good l false
  have hbWsp : ∀ c ∈ pyStrip (collapseWs l), isPySpace c = true → c = ' ' :=
    fun c hc => g1 c (mem_pyStrip hc)
  have hbCh := chain_pyStrip g2
  have hfix : collapseWsGo false (pyStrip (collapseWs l)) = pyStrip (collapseWs l) :=
    (collapse_fix _ hbWsp hbCh).1
  show pyStrip (collapseWs (pyStrip (collapseWs l))) = pyStrip (collapseWs l)
  rw [show collapseWs (pyStrip (collapseWs l)) = pyStrip (collapseWs l) from hfix]
  exact pyStrip_idem _

/-- Counterexample for claim C5 as stated: the translator itself is not
idempotent.  On `\begin{align*}$x$\end{align*}` the first application
produces `[Math: <m>x</m>]` (the inline-math rule fires inside the already
escaped math placeholder), and a second application entity-escapes the
`<m>` tags inside the placeholder, changing the string again. -/
theorem C5_counterexample :
    convert_latex_to_pretext (convert_latex_to_pretext
      ("\\begin\x7balign*\x7d$x$\\end\x7balign*\x7d".toList)) ≠
    convert_latex_to_pretext ("\\begin\x7balign*\x7d$x$\\end\x7balign*\x7d".toList) := by
  decide

/-- Claim C6: multi-part detection of the assembler.  `(a) foo. (b) bar.`
yields a two-item ordered list with marker `(a)`, items `foo.` and `bar.`,
each with exactly one final period; `A single sentence.` (no parenthesized
lowercase letter) yields a single paragraph and no list. -/
theorem C6_multipart_detection :
    create_pretext_solution ("1".toList) ("(a) foo. (b) bar.".toList) =
      ("    <solution>\n      <title>Exercise 1</title>\n      <p>\n        <ol marker=\"(a)\">\n          <li>foo.</li>\n          <li>bar.</li>\n        </ol>\n      </p>\n    </solution>").toList ∧
    create_pretext_solution ("2".toList) ("A single sentence.".toList) =
      ("    <solution>\n      <title>Exercise 2</title>\n      <p>\n        A single sentence.\n      </p>\n    </solution>").toList := by
  exact ⟨by decide, by decide⟩

/-- Claim C3: the concrete end-to-end scenario.  A source with the chapter
marker `Probability` containing the exercise annotation `% 5` followed by a
solution marker wrapping `The answer is $x=2$.` produces a document equal
to the expected skeleton; in particular the chapter section has id
`solutions-ch03` and title `Probability`, carries exactly one solution,
titled `Exercise 5`, whose body contains `<m>x=2</m>`. -/
theorem C3_concrete_scenario :
    generate_pretext (parse_solutions
      ("\\eocesolch\x7bProbability\x7d\n% 5\n\\eocesol\x7bThe answer is $x=2$.\x7d\n".toList)) =
      ("<?xml version=\"1.0\" encoding=\"UTF-8\" ?>\n\n<appendix xmlns:xi=\"http://www.w3.org/2001/XInclude\" xml:id=\"appendix-solutions\">\n  <title>Exercise Solutions</title>\n\n  <introduction>\n    <p>\n      This appendix contains solutions to selected odd-numbered exercises from each chapter.\n      These solutions are provided to help you check your work and understand the problem-solving process.\n    </p>\n  </introduction>\n\n  <section xml:id=\"solutions-ch03\">\n    <title>Probability</title>\n\n    <solution>\n      <title>Exercise 5</title>\n      <p>\n        The answer is <m>x=2</m>.\n      </p>\n    </solution>\n\n  </section>\n\n</appendix>").toList ∧
    (parse_solutions
      ("\\eocesolch\x7bProbability\x7d\n% 5\n\\eocesol\x7bThe answer is $x=2$.\x7d\n".toList)).map
        (fun p => (p.1, p.2.length)) = [("Probability".toList, 1)] ∧
    ("  <section xml:id=\"solutions-ch03\">".toList <:+:
      generate_pretext (parse_solutions
        ("\\eocesolch\x7bProbability\x7d\n% 5\n\\eocesol\x7bThe answer is $x=2$.\x7d\n".toList))) ∧
    ("    <title>Probability</title>".toList <:+:
      generate_pretext (parse_solutions
        ("\\eocesolch\x7bProbability\x7d\n% 5\n\\eocesol\x7bThe answer is $x=2$.\x7d\n".toList))) ∧
    ("<title>Exercise 5</title>".toList <:+:
      generate_pretext (parse_solutions
        ("\\eocesolch\x7bProbability\x7d\n% 5\n\\eocesol\x7bThe answer is $x=2$.\x7d\n".toList))) ∧
    ("<m>x=2</m>".toList <:+:
      generate_pretext (parse_solutions
        ("\\eocesolch\x7bProbability\x7d\n% 5\n\\eocesol\x7bThe answer is $x=2$.\x7d\n".toList))) := by
  refine ⟨by decide, by decide, by decide, by decide, by decide, by decide⟩

/-! ### Scanner lemmas -/

theorem commentMatchAt_pos (cs : List Char) (a : List Char) (n : Nat)
    (h : commentMatchAt cs = some (a, n)) : 1 ≤ n := by
  unfold commentMatchAt at h
  split at h
  · split at h
    · exact absurd h (by simp)
    · split at h
      · simp only [Option.some.injEq, Prod.mk.injEq] at h
        obtain ⟨-, h2⟩ := h
        omega
      · exact absurd h (by simp)
  · exact absurd h (by simp)

theorem eocesolMatchAt_pos (cs : List Char) (a : Unit) (n : Nat)
    (h : eocesolMatchAt cs = some (a, n)) : 1 ≤ n := by
  unfold eocesolMatchAt at h
  split at h
  · exact absurd h (by simp)
  · split at h
    · exact absurd h (by simp)
    · simp only [Option.some.injEq, Prod.mk.injEq] at h
      obtain ⟨-, h2⟩ := h
      omega

theorem searchPair_lt {alpha : Type} (m : List Char → Option (alpha × Nat))
    (hm : ∀ cs a n, m cs = some (a, n) → 1 ≤ n) :
    ∀ (cs : List Char) (a : alpha) (s1 e1 : Nat),
    searchPair m cs = some (a, s1, e1) → s1 < e1 := by
  intro cs
  induction cs with
  | nil =>
    intro a s1 e1 h
    unfold searchPair at h
    cases hm0 : m [] with
    | none => rw [hm0] at h; exact absurd h (by simp)
    | some p =>
      rw [hm0] at h
      obtain ⟨a0, n0⟩ := p
      have hn := hm [] a0 n0 hm0
      simp only [Option.some.injEq, Prod.mk.injEq] at h
      obtain ⟨-, h2, h3⟩ := h
      omega
  | cons c t ih =>
    intro a s1 e1 h
    unfold searchPair at h
    cases hm0 : m (c :: t) with
    | some p =>
      rw [hm0] at h
      obtain ⟨a0, n0⟩ := p
      have hn := hm _ a0 n0 hm0
      simp only [Option.some.injEq, Prod.mk.injEq] at h
      obtain ⟨-, h2, h3⟩ := h
      omega
    | none =>
      rw [hm0] at h
      cases hs : searchPair m t with
      | none => rw [hs] at h; exact absurd h (by simp)
      | some q =>
        rw [hs] at h
        obtain ⟨a0, s0, e0⟩ := q
        have hn := ih a0 s0 e0 hs
        simp only [Option.some.injEq, Prod.mk.injEq] at h
        obtain ⟨-, h2, h3⟩ := h
        omega

theorem scanStep_inv (content : List Char) (pos : Nat)
    (r : Option (List Char × List Char) × Nat)
    (h : scanStep content pos = some r) :
    pos < r.2 ∧ (∀ e, r.1 = some e → e.2 ≠ []) := by
  unfold scanStep at h
  split at h
  · split at h
    · exact absurd h (by simp)
    · rename_i num cstart cend hq
      have hce : cstart < cend :=
        searchPair_lt commentMatchAt commentMatchAt_pos _ _ _ _ hq
      split at h
      · rename_i hr
        simp only [Option.some.injEq] at h
        subst h
        refine ⟨by show pos < pos + cend; omega, ?_⟩
        intro e he
        replace he : (none : Option (List Char × List Char)) = some e := he
        exact absurd he (by simp)
      · rename_i u4 s4 e4 hr
        have he4 : s4 < e4 :=
          searchPair_lt eocesolMatchAt eocesolMatchAt_pos _ _ _ _ hr
        split at h
        · rename_i s hx
          simp only [Option.some.injEq] at h
          subst h
          refine ⟨by show pos < pos + cend + e4; omega, ?_⟩
          intro e he
          replace he : (if s = [] then none else some (num, s)) = some e := he
          by_cases hse : s = []
          · rw [if_pos hse] at he; exact absurd he (by simp)
          · rw [if_neg hse] at he
            simp only [Option.some.injEq] at he
            rw [← he]
            exact hse
        · rename_i hx
          simp only [Option.some.injEq] at h
          subst h
          refine ⟨by show pos < pos + cend + e4; omega, ?_⟩
          intro e he
          replace he : (none : Option (List Char × List Char)) = some e := he
          exact absurd he (by simp)
  · exact absurd h (by simp)

theorem scanStepP_inv (content : List Char) (pos : Nat)
    (r : Option (Nat × List Char × List Char) × Nat)
    (h : scanStepP content pos = some r) :
    pos < r.2 ∧ (∀ e, r.1 = some e → pos ≤ e.1 ∧ e.1 < r.2) := by
  unfold scanStepP at h
  split at h
  · split at h
    · exact absurd h (by simp)
    · rename_i num cstart cend hq
      have hce : cstart < cend :=
        searchPair_lt commentMatchAt commentMatchAt_pos _ _ _ _ hq
      split at h
      · rename_i hr
        simp only [Option.some.injEq] at h
        subst h
        refine ⟨by show pos < pos + cend; omega, ?_⟩
        intro e he
        replace he : (none : Option (Nat × List Char × List Char)) = some e := he
        exact absurd he (by simp)
      · rename_i u4 s4 e4 hr
        have he4 : s4 < e4 :=
          searchPair_lt eocesolMatchAt eocesolMatchAt_pos _ _ _ _ hr
        split at h
        · rename_i s hx
          simp only [Option.some.injEq] at h
          subst h
          refine ⟨by show pos < pos + cend + e4; omega, ?_⟩
          intro e he
          replace he : (if s = [] then none
            else some (pos + cstart, num, s)) = some e := he
          by_cases hse : s = []
          · rw [if_pos hse] at he; exact absurd he (by simp)
          · rw [if_neg hse] at he
            simp only [Option.some.injEq] at he
            rw [← he]
            constructor
            · show pos ≤ pos + cstart; omega
            · show pos + cstart < pos + cend + e4; omega
        · rename_i hx
          simp only [Option.some.injEq] at h
          subst h
          refine ⟨by show pos < pos + cend + e4; omega, ?_⟩
          intro e he
          replace he : (none : Option (Nat × List Char × List Char)) = some e := he
          exact absurd he (by simp)
  · exact absurd h (by simp)

theorem scanStep_proj (content : List Char) (pos : Nat) :
    scanStep content pos =
      (scanStepP content pos).map (fun x => (x.1.map (fun y => y.2), x.2)) := by
  unfold scanStep scanStepP
  by_cases hp : pos < content.length
  · rw [if_pos hp, if_pos hp]
    cases hq : commentSearch (content.drop pos) with
    | none => simp
    | some m3 =>
      obtain ⟨num, cstart, cend⟩ := m3
      simp only
      cases hr : eocesolSearch (content.drop (pos + cend)) with
      | none => simp
      | some m4 =>
        obtain ⟨u4, s4, e4⟩ := m4
        simp only
        cases hx : (extract_braced_content content (pos + cend + e4 - 1)).1 with
        | none => simp
        | some s =>
          by_cases hse : s = [] <;> simp [hse]
  · rw [if_neg hp, if_neg hp]
    simp

theorem scanLoopP_ge (content : List Char) :
    ∀ (fuel pos : Nat) (x : Nat × List Char × List Char),
    x ∈ scanLoopP content fuel pos → pos ≤ x.1 := by
  intro fuel
  induction fuel with
  | zero => intro pos x hx; simp [scanLoopP] at hx
  | succ f ih =>
    intro pos x hx
    unfold scanLoopP at hx
    cases hs : scanStepP content pos with
    | none => rw [hs] at hx; simp at hx
    | some r =>
      rw [hs] at hx
      obtain ⟨eo, p2⟩ := r
      obtain ⟨hlt, hent⟩ := scanStepP_inv content pos (eo, p2) hs
      rcases List.mem_append.mp hx with h1 | h1
      · cases eo with
        | none => simp at h1
        | some e =>
          simp at h1
          subst h1
          exact (hent x rfl).1
      · have := ih p2 x h1
        omega

/-- Claim C1 (amended): entries are produced at strictly increasing
annotation positions, so a chapter's Solution entries appear in source
order (first conjunct, on the position-instrumented scan, which projects
onto the actual scan by the second conjunct).  The original claim — that
every annotation immediately followed by a well-formed solution marker
yields exactly one entry — fails: the solution-marker search of one
iteration may jump over a later annotation; see the counterexample. -/
theorem C1_source_order (content : List Char) (fuel pos : Nat) :
    ((scanLoopP content fuel pos).Pairwise (fun a b => a.1 < b.1)) ∧
    (scanLoopP content fuel pos).map (fun x => x.2) = scanLoop content fuel pos := by
  induction fuel generalizing pos with
  | zero => simp [scanLoopP, scanLoop]
  | succ f ih =>
    unfold scanLoopP scanLoop
    rw [scanStep_proj content pos]
    cases hs : scanStepP content pos with
    | none => simp
    | some r =>
      obtain ⟨eo, p2⟩ := r
      obtain ⟨hlt, hent⟩ := scanStepP_inv content pos (eo, p2) hs
      constructor
      · cases eo with
        | none => simpa using (ih p2).1
        | some e =>
          simp only [List.singleton_append, List.pairwise_cons]
          refine ⟨?_, (ih p2).1⟩
          intro x hx
          have h1 := scanLoopP_ge content f p2 x hx
          have h2 := (hent e rfl).2
          omega
      · cases eo with
        | none => simpa using (ih p2).2
        | some e => simpa using (ih p2).2

/-- Counterexample for claim C1 as stated: in the text below, the
annotation `% 2` is immediately followed by the well-formed solution
marker `\eocesol{X}`, yet the parsed chapter contains no entry numbered 2:
while handling `% 1` the scanner searches forward for the next solution
marker, grabs the one belonging to exercise 2, emits it as the entry of
exercise 1, and resumes scanning past it. -/
theorem C1_counterexample :
    parse_solutions
      ("\\eocesolch\x7bProbability\x7d\n% 1\nx\n% 2\n\\eocesol\x7bX\x7d\n".toList) =
      [("Probability".toList, [("1".toList, "X".toList)])] ∧
    ("% 2\n\\eocesol\x7bX\x7d".toList <:+:
      "\\eocesolch\x7bProbability\x7d\n% 1\nx\n% 2\n\\eocesol\x7bX\x7d\n".toList) := by
  exact ⟨by decide, by decide⟩

/-! ### Extractor termination lemmas -/

theorem ebcLoop_snd_le : ∀ (l : List Char) (i : Nat) (d : Int) (acc : List Char),
    (ebcLoop i d acc l).2 ≤ i + l.length := by
  intro l
  induction l with
  | nil => intro i d acc; simp [ebcLoop]
  | cons c t ih =>
    intro i d acc
    by_cases h1 : c = obr
    · rw [show ebcLoop i d acc (c :: t) =
        ebcLoop (i+1) (d+1) (if d + 1 > 1 then c :: acc else acc) t from by
          simp [ebcLoop, h1]]
      have := ih (i+1) (d+1) (if d + 1 > 1 then c :: acc else acc)
      simp only [List.length_cons]
      omega
    · by_cases h2 : c = cbr
      · rw [show ebcLoop i d acc (c :: t) =
          (if d - 1 = 0 then (some acc.reverse, i+1)
            else ebcLoop (i+1) (d-1) (c :: acc) t) from by
            simp [ebcLoop, h1, h2, show ¬ (cbr = obr) from by decide]]
        by_cases h3 : d - 1 = 0
        · rw [if_pos h3]
          simp only [List.length_cons]
          omega
        · rw [if_neg h3]
          have := ih (i+1) (d-1) (c :: acc)
          simp only [List.length_cons]
          omega
      · rw [show ebcLoop i d acc (c :: t) =
          ebcLoop (i+1) d (if d > 0 then c :: acc else acc) t from by
            simp [ebcLoop, h1, h2]]
        have := ih (i+1) d (if d > 0 then c :: acc else acc)
        simp only [List.length_cons]
        omega

theorem ebcLoop_runsOff (l : List Char) :
    ∀ (i : Nat) (acc : List Char) (d : Int),
    1 ≤ d →
    (∀ n, n ≤ l.length →
      ((l.take n).count cbr : Int) < (l.take n).count obr + d) →
    ebcLoop i d acc l = (some (acc.reverse ++ l), i + l.length) := by
  induction l with
  | nil => intro i acc d hd hpre; simp [ebcLoop]
  | cons c t ih =>
    intro i acc d hd hpre
    by_cases hob : c = obr
    · subst hob
      rw [show ebcLoop i d acc (obr :: t) =
        ebcLoop (i+1) (d+1) (if d + 1 > 1 then obr :: acc else acc) t from by
          simp [ebcLoop]]
      rw [if_pos (by omega)]
      rw [ih (i+1) (obr :: acc) (d+1) (by omega)
        (fun n hn => by
          have h := hpre (n+1) (by simpa using hn)
          rw [List.take_succ_cons] at h
          simp only [List.count_cons] at h
          simp [show obr ≠ cbr from by decide, show cbr ≠ obr from by decide] at h
          omega)]
      simp only [Prod.mk.injEq, Option.some.injEq]
      exact ⟨by simp, by simp only [List.length_cons]; omega⟩
    · by_cases hcb : c = cbr
      · subst hcb
        have h1 := hpre 1 (by simp)
        rw [show (cbr :: t).take 1 = [cbr] from rfl] at h1
        rw [show ([cbr].count cbr) = 1 from by decide,
            show ([cbr].count obr) = 0 from by decide] at h1
        rw [show ebcLoop i d acc (cbr :: t) =
          (if d - 1 = 0 then (some acc.reverse, i+1)
            else ebcLoop (i+1) (d-1) (cbr :: acc) t) from by
            have hne : ¬ (cbr = obr) := by decide
            simp [ebcLoop, hne]]
        rw [if_neg (by omega)]
        rw [ih (i+1) (cbr :: acc) (d-1) (by omega)
          (fun n hn => by
            have h := hpre (n+1) (by simpa using hn)
            rw [List.take_succ_cons] at h
            simp only [List.count_cons] at h
            simp [show obr ≠ cbr from by decide, show cbr ≠ obr from by decide] at h
            omega)]
        simp only [Prod.mk.injEq, Option.some.injEq]
        exact ⟨by simp, by simp only [List.length_cons]; omega⟩
      · rw [show ebcLoop i d acc (c :: t) =
          ebcLoop (i+1) d (if d > 0 then c :: acc else acc) t from by
            simp [ebcLoop, hob, hcb]]
        rw [if_pos (by omega)]
        rw [ih (i+1) (c :: acc) d hd
          (fun n hn => by
            have h := hpre (n+1) (by simpa using hn)
            rw [List.take_succ_cons] at h
            simp only [List.count_cons] at h
            simp [hob, hcb] at h
            omega)]
        simp only [Prod.mk.injEq, Option.some.injEq]
        exact ⟨by simp, by simp only [List.length_cons]; omega⟩

/-- Claim C7: monotonic forward progress and termination on malformed
input.  (1) every iteration of the solution-scanning loop strictly
increases the scan position; (2) the brace matcher's returned position
never exceeds the end of text (it is total by construction); (3) on an
opening brace whose braces never re-balance, the brace matcher consumes to
the end of text and returns. -/
theorem C7_monotonic_progress :
    (∀ (content : List Char) (pos : Nat)
      (r : Option (List Char × List Char) × Nat),
      scanStep content pos = some r → pos < r.2) ∧
    (∀ (text : List Char) (s : Nat),
      (extract_braced_content text s).2 ≤ max s text.length) ∧
    (∀ (text : List Char) (s : Nat) (u : List Char),
      text.drop s = obr :: u →
      (∀ n, n ≤ u.length → (u.take n).count cbr ≤ (u.take n).count obr) →
      extract_braced_content text s = (some u, text.length)) := by
  refine ⟨?_, ?_, ?_⟩
  · intro content pos r h
    exact (scanStep_inv content pos r h).1
  · intro text s
    unfold extract_braced_content
    by_cases hc : s < text.length ∧ text[s]? = some obr
    · rw [if_pos hc]
      have := ebcLoop_snd_le (text.drop s) s 0 []
      simp only [List.length_drop] at this
      omega
    · rw [if_neg hc]
      simp
  · intro text s u hdrop hpre
    have hlen : s < text.length := by
      by_contra hcon
      have : text.drop s = [] := List.drop_eq_nil_of_le (by omega)
      rw [this] at hdrop
      exact absurd hdrop (by simp)
    have hget : text[s]? = some obr := by
      have h0 : (text.drop s)[0]? = text[s]? := by
        simp [List.getElem?_drop]
      rw [hdrop] at h0
      simpa using h0.symm
    have hulen : u.length + 1 = text.length - s := by
      have := congrArg List.length hdrop
      simpa [List.length_drop] using this.symm
    rw [extract_braced_content, if_pos ⟨hlen, hget⟩, hdrop]
    rw [show ebcLoop s 0 [] (obr :: u) = ebcLoop (s+1) 1 [] u from by
      simp [ebcLoop]]
    rw [ebcLoop_runsOff u (s+1) [] 1 (by omega)
      (fun n hn => by have := hpre n hn; omega)]
    simp only [Prod.mk.injEq, Option.some.injEq]
    exact ⟨by simp, by omega⟩

/-- Witness for C7 at concrete inputs: one scan step from position 0 of
`% 1\n\eocesol{X}` lands at position 13 > 0, and the brace matcher on the
unbalanced text `{ab` consumes to the end of text. -/
theorem C7_monotonic_progress_witness :
    (0 < ((some (("1".toList, "X".toList) : List Char × List Char), 13) :
      Option (List Char × List Char) × Nat).2) ∧
    extract_braced_content ("\x7bab".toList) 0 = (some ("ab".toList), 3) := by
  constructor
  · exact C7_monotonic_progress.1 ("% 1\n\\eocesol\x7bX\x7d".toList) 0 _ (by decide)
  · have h := C7_monotonic_progress.2.2 ("\x7bab".toList) 0 ("ab".toList)
      (by decide) (by decide)
    rw [h]
    decide

/-- Claim C10: a solution marker with empty braced argument yields no
Solution entry (first conjunct: no entry of any scan ever has empty text),
and scanning continues past the marker (second conjunct: in the concrete
text, exercise 1's empty `\eocesol{}` is dropped while exercise 2 after it
is still found). -/
theorem C10_empty_solution_dropped :
    (∀ (content : List Char) (fuel pos : Nat) (e : List Char × List Char),
      e ∈ scanLoop content fuel pos → e.2 ≠ []) ∧
    scanChapter ("% 1\n\\eocesol\x7b\x7d\n% 2\n\\eocesol\x7bY\x7d\n".toList) =
      [("2".toList, "Y".toList)] := by
  constructor
  · intro content fuel
    induction fuel with
    | zero => intro pos e he; simp [scanLoop] at he
    | succ f ih =>
      intro pos e he
      unfold scanLoop at he
      cases hs : scanStep content pos with
      | none => rw [hs] at he; simp at he
      | some r =>
        rw [hs] at he
        obtain ⟨eo, p2⟩ := r
        rcases List.mem_append.mp he with h1 | h1
        · cases eo with
          | none => simp at h1
          | some e0 =>
            simp at h1
            subst h1
            exact (scanStep_inv content pos (some e, p2) hs).2 e rfl
        · exact ih p2 e h1
  · decide

/-- Witness for C10: the entry of exercise 2 in the concrete scan has
nonempty text. -/
theorem C10_empty_solution_dropped_witness :
    (("2".toList, "Y".toList) ∈
      scanChapter ("% 1\n\\eocesol\x7b\x7d\n% 2\n\\eocesol\x7bY\x7d\n".toList)) ∧
    (("2".toList, "Y".toList) : List Char × List Char).2 ≠ [] := by
  constructor
  · decide
  · exact C10_empty_solution_dropped.1
      ("% 1\n\\eocesol\x7b\x7d\n% 2\n\\eocesol\x7bY\x7d\n".toList)
      (("% 1\n\\eocesol\x7b\x7d\n% 2\n\\eocesol\x7bY\x7d\n".toList).length + 1) 0
      _ (by decide)

/-! ### String-replacement lemmas -/

theorem isPrefixOf_append_self (p X : List Char) : p.isPrefixOf (p ++ X) = true := by
  induction p with
  | nil => simp [List.isPrefixOf]
  | cons a t ih => simp [List.isPrefixOf, ih]

theorem cons_isPrefixOf (p : Char) (pt : List Char) (d : Char) (t : List Char) :
    (p :: pt).isPrefixOf (d :: t) = ((p == d) && pt.isPrefixOf t) := by
  simp [List.isPrefixOf]

theorem repGo_fuel_congr (pat rep : List Char) :
    ∀ (F G : Nat) (l : List Char), l.length ≤ F → l.length ≤ G →
    repGo pat rep F l = repGo pat rep G l := by
  intro F
  induction F with
  | zero =>
    intro G l hF hG
    have hl : l = [] := List.eq_nil_of_length_eq_zero (by omega)
    subst hl
    cases G <;> simp [repGo]
  | succ F ih =>
    intro G l hF hG
    cases l with
    | nil => cases G <;> simp [repGo]
    | cons c t =>
      cases G with
      | zero => simp at hG
      | succ G2 =>
        simp only [repGo]
        by_cases hc : pat.isPrefixOf (c :: t) ∧ pat ≠ []
        · rw [if_pos hc, if_pos hc]
          congr 1
          have hpl : 1 ≤ pat.length := by
            cases hp : pat with
            | nil => exact absurd hp hc.2
            | cons a b => simp
          have hdl : ((c :: t).drop pat.length).length ≤ t.length := by
            simp only [List.length_drop, List.length_cons]
            omega
          simp only [List.length_cons] at hF hG
          exact ih G2 _ (by omega) (by omega)
        · rw [if_neg hc, if_neg hc]
          congr 1
          simp only [List.length_cons] at hF hG
          exact ih G2 t (by omega) (by omega)

theorem mem_repGo (pat rep : List Char) :
    ∀ (F : Nat) (l : List Char) (x : Char),
    x ∈ repGo pat rep F l → x ∈ l ∨ x ∈ rep := by
  intro F
  induction F with
  | zero =>
    intro l x hx
    cases l with
    | nil => simp [repGo] at hx
    | cons c t => exact Or.inl (by simpa [repGo] using hx)
  | succ F ih =>
    intro l x hx
    cases l with
    | nil => simp [repGo] at hx
    | cons c t =>
      simp only [repGo] at hx
      by_cases hc : pat.isPrefixOf (c :: t) ∧ pat ≠ []
      · rw [if_pos hc] at hx
        rcases List.mem_append.mp hx with h | h
        · exact Or.inr h
        · rcases ih _ x h with h2 | h2
          · exact Or.inl (List.drop_subset _ _ h2)
          · exact Or.inr h2
      · rw [if_neg hc] at hx
        rcases List.mem_cons.mp hx with h | h
        · exact Or.inl (by simp [h])
        · rcases ih t x h with h2 | h2
          · exact Or.inl (by simp [h2])
          · exact Or.inr h2

/-- One non-matching step of `replaceAll`: if the pattern's first character
differs from the head, the head passes through. -/
theorem repGo_step_ne (rep : List Char) (p0 : Char) (pt : List Char)
    (c : Char) (t : List Char) (hne : ¬ (p0 = c)) :
    replaceAll (p0 :: pt) rep (c :: t) = c :: replaceAll (p0 :: pt) rep t := by
  unfold replaceAll
  simp only [List.length_cons, repGo]
  rw [if_neg (by rw [cons_isPrefixOf]; simp [hne])]

/-- One matching step of `replaceAll` at the pattern itself. -/
theorem repGo_chunk (pat rep : List Char) (hpat : pat ≠ []) (X : List Char) :
    replaceAll pat rep (pat ++ X) = rep ++ replaceAll pat rep X := by
  unfold replaceAll
  cases pat with
  | nil => exact absurd rfl hpat
  | cons p0 pt =>
    rw [show ((p0 :: pt) ++ X).length = (pt.length + X.length) + 1 from by
      simp [List.length_append]]
    rw [List.cons_append]
    simp only [repGo]
    rw [if_pos ⟨by rw [cons_isPrefixOf]; simp [isPrefixOf_append_self], by simp⟩]
    rw [show (p0 :: (pt ++ X)).drop ((p0 :: pt).length) = X from by
      simp only [List.length_cons, List.drop_succ_cons]
      exact List.drop_left pt X]
    congr 1
    exact repGo_fuel_congr (p0 :: pt) rep (pt.length + X.length) X.length X
      (by omega) (by omega)

theorem phLit_cons : phLit = '¤' :: ("AMPERSAND¤".toList) := by decide

theorem replaceAll_single_id (c : Char) (rep : List Char) :
    ∀ (l : List Char), c ∉ l → replaceAll [c] rep l = l := by
  intro l
  induction l with
  | nil => intro _; rfl
  | cons d t ih =>
    intro h
    rw [repGo_step_ne rep c [] d t (fun hq => h (by simp [hq]))]
    rw [ih (fun hq => h (by simp [hq]))]

theorem amp_roundtrip (body : List Char) (h : '¤' ∉ body) :
    replaceAll phLit ("&amp;".toList) (replaceAll ['&'] phLit body) =
      replaceAll ['&'] ("&amp;".toList) body := by
  induction body with
  | nil => rfl
  | cons c t ih =>
    have hnot : '¤' ∉ t := fun hq => h (by simp [hq])
    by_cases hc : c = '&'
    · subst hc
      rw [show ('&' :: t) = ['&'] ++ t from rfl]
      rw [repGo_chunk ['&'] phLit (by simp) t]
      rw [repGo_chunk ['&'] ("&amp;".toList) (by simp) t]
      rw [repGo_chunk phLit ("&amp;".toList) (by decide) (replaceAll ['&'] phLit t)]
      rw [ih hnot]
    · have hcq : ¬ (c = '¤') := fun hq => h (by simp [hq])
      rw [repGo_step_ne phLit '&' [] c t (fun hq => hc hq.symm)]
      rw [phLit_cons]
      rw [repGo_step_ne ("&amp;".toList) '¤' ("AMPERSAND¤".toList) c
        (replaceAll ['&'] ('¤' :: ("AMPERSAND¤".toList)) t) (fun hq => hcq hq.symm)]
      rw [repGo_step_ne ("&amp;".toList) '&' [] c t (fun hq => hc hq.symm)]
      rw [← phLit_cons, ih hnot]

/-! ### Ampersand-pass lemmas -/

theorem ampEsc_no_amp (u : List Char) (hu : '&' ∉ u) :
    ∀ v, ampEsc (u ++ v) = u ++ ampEsc v := by
  induction u with
  | nil => intro v; rfl
  | cons c t ih =>
    intro v
    have hc : ¬(c = '&') := fun hq => hu (by simp [hq])
    rw [List.cons_append]
    rw [show ampEsc (c :: (t ++ v)) = c :: ampEsc (t ++ v) from by
      simp [ampEsc, hc]]
    rw [ih (fun hq => hu (by simp [hq])) v]
    rfl

theorem entityTail_ampEsc (t : List Char) (h : entityTail t = true) :
    entityTail (ampEsc t) = true := by
  by_cases h1 : ("amp;".toList).isPrefixOf t = true
  · obtain ⟨v, hv⟩ := List.isPrefixOf_iff_prefix.mp h1
    rw [← hv, ampEsc_no_amp _ (by decide) v]
    simp [entityTail, isPrefixOf_append_self]
  · by_cases h2 : ("lt;".toList).isPrefixOf t = true
    · obtain ⟨v, hv⟩ := List.isPrefixOf_iff_prefix.mp h2
      rw [← hv, ampEsc_no_amp _ (by decide) v]
      simp [entityTail, isPrefixOf_append_self]
    · by_cases h3 : ("gt;".toList).isPrefixOf t = true
      · obtain ⟨v, hv⟩ := List.isPrefixOf_iff_prefix.mp h3
        rw [← hv, ampEsc_no_amp _ (by decide) v]
        simp [entityTail, isPrefixOf_append_self]
      · by_cases h4 : ("quot;".toList).isPrefixOf t = true
        · obtain ⟨v, hv⟩ := List.isPrefixOf_iff_prefix.mp h4
          rw [← hv, ampEsc_no_amp _ (by decide) v]
          simp [entityTail, isPrefixOf_append_self]
        · by_cases h5 : ("apos;".toList).isPrefixOf t = true
          · obtain ⟨v, hv⟩ := List.isPrefixOf_iff_prefix.mp h5
            rw [← hv, ampEsc_no_amp _ (by decide) v]
            simp [entityTail, isPrefixOf_append_self]
          · unfold entityTail at h
            rw [(Bool.not_eq_true _).mp h1] at h
            rw [(Bool.not_eq_true _).mp h2] at h
            rw [(Bool.not_eq_true _).mp h3] at h
            rw [(Bool.not_eq_true _).mp h4] at h
            rw [(Bool.not_eq_true _).mp h5] at h
            simp at h

theorem ampEsc_idem (s : List Char) : ampEsc (ampEsc s) = ampEsc s := by
  induction s with
  | nil => rfl
  | cons c t ih =>
    by_cases hc : c = '&'
    · subst hc
      by_cases he : entityTail t = true
      · rw [show ampEsc ('&' :: t) = '&' :: ampEsc t from by simp [ampEsc, he]]
        rw [show ampEsc ('&' :: ampEsc t) = '&' :: ampEsc (ampEsc t) from by
          simp [ampEsc, entityTail_ampEsc t he]]
        rw [ih]
      · have he2 : entityTail t = false := by simpa using he
        rw [show ampEsc ('&' :: t) =
          '&' :: ('a' :: 'm' :: 'p' :: ';' :: ampEsc t) from by
          simp [ampEsc, he2]]
        have hT : entityTail ('a' :: 'm' :: 'p' :: ';' :: ampEsc t) = true := by
          rw [show ('a' :: 'm' :: 'p' :: ';' :: ampEsc t) =
            "amp;".toList ++ ampEsc t from rfl]
          simp [entityTail, isPrefixOf_append_self]
        rw [show ampEsc ('&' :: ('a' :: 'm' :: 'p' :: ';' :: ampEsc t)) =
            '&' :: ampEsc ('a' :: 'm' :: 'p' :: ';' :: ampEsc t) from by
          simp [ampEsc, hT]]
        rw [show ('a' :: 'm' :: 'p' :: ';' :: ampEsc t) =
          "amp;".toList ++ ampEsc t from rfl]
        rw [ampEsc_no_amp ("amp;".toList) (by decide) (ampEsc t)]
        rw [ih]
    · rw [show ampEsc (c :: t) = c :: ampEsc t from by simp [ampEsc, hc]]
      rw [show ampEsc (c :: ampEsc t) = c :: ampEsc (ampEsc t) from by
        simp [ampEsc, hc]]
      rw [ih]

/-- Claim C4 (amended): ampersand escaping is scoped and single-pass at the
stage level.  (1) For a display-math body free of the private placeholder
character and of `<`/`>`, composing the protection (`&` to placeholder, as
in `protect_math_env`) with the math-placeholder escape (`mathEscBody`, as
in `escape_math_markup`) rewrites each `&` to `&amp;` exactly once;
(2) the final prose pass `ampEsc` is idempotent, so an `&` already part of
`&amp;` is never escaped a second time; (3) a plain `&` not followed by an
entity tail becomes `&amp;` exactly once.  The unamended claim fails: a
prose segment that starts with `<` or `[` is skipped by the final pass, and
a `]` inside a display-math body truncates the placeholder so that the
protected `&`s after it are never restored; see the counterexample. -/
theorem C4_scoped_amp_escaping :
    (∀ body : List Char, '¤' ∉ body → '<' ∉ body → '>' ∉ body →
      mathEscBody (replaceAll ['&'] phLit body) =
        replaceAll ['&'] ("&amp;".toList) body) ∧
    (∀ s : List Char, ampEsc (ampEsc s) = ampEsc s) ∧
    (∀ (pre post : List Char), '&' ∉ pre → entityTail post = false →
      ampEsc (pre ++ '&' :: post) = pre ++ "&amp;".toList ++ ampEsc post) := by
  refine ⟨?_, ampEsc_idem, ?_⟩
  · intro body h1 h2 h3
    unfold mathEscBody
    have hin : ∀ x, x ∈ replaceAll ['&'] phLit body → x ∈ body ∨ x ∈ phLit :=
      fun x hx => mem_repGo ['&'] phLit body.length body x hx
    have hlt : '<' ∉ replaceAll ['&'] phLit body := by
      intro hx
      rcases hin '<' hx with h | h
      · exact h2 h
      · exact absurd h (by decide)
    have hgt : '>' ∉ replaceAll ['&'] phLit body := by
      intro hx
      rcases hin '>' hx with h | h
      · exact h3 h
      · exact absurd h (by decide)
    rw [replaceAll_single_id '<' _ _ hlt, replaceAll_single_id '>' _ _ hgt]
    exact amp_roundtrip body h1
  · intro pre post hpre hpost
    rw [ampEsc_no_amp pre hpre ('&' :: post)]
    rw [show ampEsc ('&' :: post) = "&amp;".toList ++ ampEsc post from by
      simp [ampEsc, hpost]]
    simp [List.append_assoc]

/-- Witness for C4 (amended) at concrete inputs. -/
theorem C4_scoped_amp_escaping_witness :
    mathEscBody (replaceAll ['&'] phLit ("a&b".toList)) =
      replaceAll ['&'] ("&amp;".toList) ("a&b".toList) ∧
    ampEsc (ampEsc ("x & &amp; y".toList)) = ampEsc ("x & &amp; y".toList) ∧
    ampEsc ("ab".toList ++ '&' :: " cd".toList) =
      "ab".toList ++ "&amp;".toList ++ ampEsc (" cd".toList) :=
  ⟨C4_scoped_amp_escaping.1 ("a&b".toList) (by decide) (by decide) (by decide),
   C4_scoped_amp_escaping.2.1 ("x & &amp; y".toList),
   C4_scoped_amp_escaping.2.2 ("ab".toList) (" cd".toList) (by decide) (by decide)⟩

/-- Counterexample for claim C4 as stated: the prose input `<x & y` passes
through the translator unchanged — its single plain segment starts with
`<`, so the final ampersand pass skips it and the `&` in plain prose is
never escaped to `&amp;`. -/
theorem C4_counterexample :
    convert_latex_to_pretext ("<x & y".toList) = "<x & y".toList ∧
    '&' ∈ ("<x & y".toList) ∧
    ¬ ("&amp;".toList <:+: convert_latex_to_pretext ("<x & y".toList)) := by
  exact ⟨by decide, by decide, by decide⟩

/-! ### Takewhile-boundary lemma for the math matchers -/

theorem takeWhile_append_end (p : Char → Bool) (s : List Char)
    (h : ∀ c ∈ s, p c = true) (d : Char) (hd : p d = false) (r : List Char) :
    (s ++ d :: r).takeWhile p = s := by
  induction s with
  | nil =>
    simp only [List.nil_append]
    rw [List.takeWhile_cons_of_neg (by simp [hd])]
  | cons a t ih =>
    rw [List.cons_append, List.takeWhile_cons_of_pos (h a (by simp))]
    rw [ih (fun c hc => h c (by simp [hc]))]

/-- Claim C8: deliberate asymmetry of the two math escapings.  Inline math
`$...$` becomes a `<m>...</m>` tag whose body rewrites `<`/`>` to the
escaped-command forms `\lt`/`\gt` (`inlineMathBody`, from `replace_math`),
while a display-math `[Math: ...]` placeholder rewrites `<`/`>` to the
entities `&lt;`/`&gt;` (`mathEscBody`, from `escape_math_markup`).  The
first two conjuncts characterise the two substitution passes on a
well-formed occurrence; the last two exhibit the asymmetry concretely. -/
theorem C8_math_escaping_asymmetry :
    (∀ s : List Char, s ≠ [] → '$' ∉ s →
      subAll inlineMathM ('$' :: (s ++ ['$'])) =
        "<m>".toList ++ inlineMathBody s ++ "</m>".toList) ∧
    (∀ s : List Char, s ≠ [] → ']' ∉ s →
      subAll mathEscM ("[Math: ".toList ++ (s ++ [']'])) =
        "[Math: ".toList ++ mathEscBody s ++ [']']) ∧
    subAll inlineMathM ("$a<b$".toList) = "<m>a\\ltb</m>".toList ∧
    subAll mathEscM ("[Math: a<b]".toList) = "[Math: a&lt;b]".toList := by
  refine ⟨?_, ?_, by decide, by decide⟩
  · intro s hne hnim
    have hall : ∀ c ∈ s, (fun c => !(c == '$')) c = true := by
      intro c hc
      simp only [Bool.not_eq_true']
      simp only [beq_eq_false_iff_ne, ne_eq]
      intro hq
      subst hq
      exact hnim hc
    have htw : ((s ++ ['$']).takeWhile (fun c => !(c == '$'))) = s :=
      takeWhile_append_end _ s hall '$' (by simp) []
    have h1 : charP '$' ('$' :: (s ++ ['$'])) = some (s ++ ['$']) := by
      simp [charP]
    have h2 : classP (fun c => !(c == '$')) (s ++ ['$']) = some (s, ['$']) := by
      unfold classP
      rw [htw, if_neg hne,
        show (s ++ ['$']).drop s.length = ['$'] from List.drop_left s ['$']]
    have h3 : charP '$' (['$'] : List Char) = some [] := by simp [charP]
    have hm : inlineMathM ('$' :: (s ++ ['$'])) =
        some ("<m>".toList ++ inlineMathBody s ++ "</m>".toList, s.length + 2) := by
      unfold inlineMathM
      simp only [h1, h2, h3]
      simp only [Option.some.injEq, Prod.mk.injEq]
      refine ⟨trivial, ?_⟩
      simp [List.length_append]
    unfold subAll
    rw [show (('$' :: (s ++ ['$'])).length) = (s.length + 1) + 1 from by simp]
    simp only [subGo, hm]
    rw [if_neg (by omega)]
    rw [show ('$' :: (s ++ ['$'])).drop (s.length + 2) = [] from by
      apply List.drop_eq_nil_of_le
      simp
      try omega]
    simp [subGo]
  · intro s hne hnim
    have hall : ∀ c ∈ s, (fun c => !(c == ']')) c = true := by
      intro c hc
      simp only [Bool.not_eq_true']
      simp only [beq_eq_false_iff_ne, ne_eq]
      intro hq
      subst hq
      exact hnim hc
    have htw : ((s ++ [']']).takeWhile (fun c => !(c == ']'))) = s :=
      takeWhile_append_end _ s hall ']' (by simp) []
    have h1 : litP ("[Math: ".toList) ("[Math: ".toList ++ (s ++ [']'])) =
        some (s ++ [']']) := by
      unfold litP
      rw [if_pos (isPrefixOf_append_self _ _), List.drop_left]
    have h2 : classP (fun c => !(c == ']')) (s ++ [']']) = some (s, [']']) := by
      unfold classP
      rw [htw, if_neg hne,
        show (s ++ [']']).drop s.length = [']'] from List.drop_left s [']']]
    have h3 : charP ']' (([']']) : List Char) = some [] := by simp [charP]
    have hm : mathEscM ("[Math: ".toList ++ (s ++ [']'])) =
        some ("[Math: ".toList ++ mathEscBody s ++ [']'], s.length + 8) := by
      unfold mathEscM
      simp only [h1, h2, h3]
      simp only [Option.some.injEq, Prod.mk.injEq]
      refine ⟨trivial, ?_⟩
      simp [List.length_append]
      try omega
    unfold subAll
    rw [show ("[Math: ".toList ++ (s ++ [']'])) =
      '[' :: ("Math: ".toList ++ (s ++ [']'])) from rfl] at hm ⊢
    rw [show (('[' :: ("Math: ".toList ++ (s ++ [']']))).length) =
      (s.length + 7) + 1 from by
        rw [show ("Math: ".toList) = ['M','a','t','h',':',' '] from rfl]
        simp [List.length_append]
        try omega]
    simp only [subGo, hm]
    rw [if_neg (by omega)]
    rw [show ('[' :: ("Math: ".toList ++ (s ++ [']']))).drop (s.length + 8) = [] from by
      apply List.drop_eq_nil_of_le
      rw [show ("Math: ".toList) = ['M','a','t','h',':',' '] from rfl]
      simp [List.length_append]
      try omega]
    simp [subGo]

/-- Witness for C8 at the one-character body `x`. -/
theorem C8_math_escaping_asymmetry_witness :
    subAll inlineMathM ('$' :: ("x".toList ++ ['$'])) =
      "<m>".toList ++ inlineMathBody ("x".toList) ++ "</m>".toList ∧
    subAll mathEscM ("[Math: ".toList ++ ("x".toList ++ [']'])) =
      "[Math: ".toList ++ mathEscBody ("x".toList) ++ [']'] :=
  ⟨C8_math_escaping_asymmetry.1 ("x".toList) (by decide) (by decide),
   C8_math_escaping_asymmetry.2.1 ("x".toList) (by decide) (by decide)⟩

/-- Claim C9: the run is all-or-nothing with respect to the output file.
In the event-trace model of `main`: every run performs at most one write;
the run fails exactly when the input file is missing, and then no write
event occurs at all; when the input is present the single write carries
the complete assembled document. -/
theorem C9_all_or_nothing (input : Option (List Char)) :
    ((run_main input).1.filter isWrite).length ≤ 1 ∧
    ((run_main input).2 = false ↔ input = none) ∧
    (input = none → (run_main input).1.filter isWrite = []) ∧
    (∀ c, input = some c →
      (run_main input).1.filter isWrite =
        [FileEv.writeOutput (generate_pretext (parse_solutions c))]) := by
  cases input with
  | none =>
    refine ⟨by simp [run_main, isWrite], by simp [run_main],
      fun _ => by simp [run_main, isWrite], fun c hc => by simp at hc⟩
  | some c0 =>
    refine ⟨by simp [run_main, isWrite], by simp [run_main],
      fun hc => by simp at hc, fun c hc => ?_⟩
    have hcc : c = c0 := by simpa using hc.symm
    subst hcc
    simp [run_main, isWrite]

/-- Witness for C9 at a missing input and at the concrete input `x`. -/
theorem C9_all_or_nothing_witness :
    (run_main none).1.filter isWrite = [] ∧
    (run_main (some ("x".toList))).1.filter isWrite =
      [FileEv.writeOutput (generate_pretext (parse_solutions ("x".toList)))] :=
  ⟨(C9_all_or_nothing none).2.2.1 rfl,
   (C9_all_or_nothing (some ("x".toList))).2.2.2 ("x".toList) rfl⟩
